import Mathlib

/-!
Shallow embedding of `src/caseGenerator/enumerateCases.js` from the
lazy-jest repository, together with theorems about the two exported
operations `appendArgCases` (fan-out expansion) and `enumerateCases`
(plan enumeration).

JavaScript semantics that matter here and how they are modelled:
  - `arr[i]` on an out-of-range or negative index yields `undefined`;
    we model element lookup as `Option` (`jsIndex`) and, for candidate
    values, as the dedicated value `JSVal.undef` (`jsHead` for `arr[0]`).
  - an object field that may be absent (`invalidCases`) is an `Option`.
  - `typeof x === 'number'` on the optional `invalidArgConfigIndex`
    parameter distinguishes `some` from `none` in the `Option Int` model.
-/

namespace LazyJest

/-- Values that occur in the argument-configuration samples: JavaScript
booleans, numbers, and the distinguished `undefined` value produced by an
out-of-bounds array access. -/
inductive JSVal where
  | undef : JSVal
  | vBool : Bool → JSVal
  | vNum : Int → JSVal
  deriving DecidableEq, Repr

/-- One argument's configuration (`ArgConfig` in `index.flow`): a name (used
only for documentation), ordered valid samples, ordered invalid samples
(`Option` because the field may be missing), and the optional-argument flag
(never read by the core algorithm). -/
structure ArgConfig where
  name : String
  validCases : List JSVal
  invalidCases : Option (List JSVal)
  optional : Bool
  deriving DecidableEq, Repr, Inhabited

/-- JavaScript `l[i]` for an arbitrary (possibly negative or out-of-range)
numeric index: `none` models `undefined`. -/
def jsIndex (l : List α) (i : Int) : Option α :=
  if h : 0 ≤ i ∧ i.toNat < l.length then some (l.get ⟨i.toNat, h.2⟩) else none

/-- JavaScript `l[0]` on a list of values: an empty list yields `undefined`. -/
def jsHead (l : List JSVal) : JSVal :=
  l.headD JSVal.undef

/-- The `appendArgCases` function of `enumerateCases.js` (lines 13-22):
`nextArgCases.reduce((acc, v) => acc.concat(appendMethod(cases, v)), [])`.
The strategy always receives the original `cases`, never the accumulator. -/
def appendArgCases (appendMethod : List C → JSVal → List C)
    (cases : List C) (nextArgCases : List JSVal) : List C :=
  nextArgCases.foldl
    (fun appendedCases nextArgCase =>
      appendedCases ++ appendMethod cases nextArgCase)
    []

/-- The `i === invalidArgConfigIndex` test inside the fold of
`enumerateCases` (line 74): the reduce index `i` is a natural number, the
parameter may be absent. -/
def idxMatches (invalidArgConfigIndex : Option Int) (i : Nat) : Bool :=
  match invalidArgConfigIndex with
  | some k => k == (i : Int)
  | none => false

/-- The `typeof invalidArgConfigIndex !== 'number' || invalidArgConfigIndex < 0`
test of `enumerateCases` (lines 78-81) selecting the all-valid plan. -/
def isAllValidPlan (invalidArgConfigIndex : Option Int) : Bool :=
  match invalidArgConfigIndex with
  | some k => decide (k < 0)
  | none => true

/-- The `invalidArgConf` constant of `enumerateCases` (lines 65-68):
`argsConfig[invalidArgConfigIndex]` when the parameter is a number,
`undefined` otherwise. -/
def resolveFaulted (argsConfig : List ArgConfig) (invalidArgConfigIndex : Option Int) :
    Option ArgConfig :=
  match invalidArgConfigIndex with
  | some i => jsIndex argsConfig i
  | none => none

/-- The destructured `invalidCases` constant of `enumerateCases` (line 69):
`(invalidArgConf || \x7b\x7d).invalidCases`, which is `undefined` when either the
config or the field is missing. -/
def faultedInvalidCases (argsConfig : List ArgConfig)
    (invalidArgConfigIndex : Option Int) : Option (List JSVal) :=
  (resolveFaulted argsConfig invalidArgConfigIndex).bind ArgConfig.invalidCases

/-- The `enumerateCases` function of `enumerateCases.js` (lines 60-87).
The guard on lines 70-72 returns `[]` when the faulted config resolved but
its `invalidCases` is missing or empty; otherwise the reduce on lines 73-85
runs.  The `getD []` on the faulted branch is only consumed on paths where
the guard guaranteed a present, non-empty list. -/
def enumerateCases (appendMethod : List C → JSVal → List C)
    (argsConfig : List ArgConfig) (invalidArgConfigIndex : Option Int) : List C :=
  if (resolveFaulted argsConfig invalidArgConfigIndex).isSome
      && ((faultedInvalidCases argsConfig invalidArgConfigIndex).getD []).isEmpty then
    []
  else
    argsConfig.enum.foldl
      (fun processedCases p =>
        if idxMatches invalidArgConfigIndex p.1 then
          appendArgCases appendMethod processedCases
            ((faultedInvalidCases argsConfig invalidArgConfigIndex).getD [])
        else if isAllValidPlan invalidArgConfigIndex then
          appendArgCases appendMethod processedCases p.2.validCases
        else
          appendMethod processedCases (jsHead p.2.validCases))
      []

/-- Modelled from the spec: the simple positional strategy `extendArrayCase`
(a concrete strategy of the repository that lives outside the core module):
`extend([], v) = [[v]]` and, for non-empty `cases`,
`extend(cases, v) = cases.map(c => c.concat(v))`. -/
def extendArrayCase (cases : List (List JSVal)) (v : JSVal) : List (List JSVal) :=
  match cases with
  | [] => [[v]]
  | _ => cases.map (fun c => c ++ [v])

/-- The all-valid plan written from the spec's words: fold left-to-right
over `configs`; at each slot, call `expandAll(strategy)(accumulated,
config.validCases)`. -/
def specAllValidPlan (appendMethod : List C → JSVal → List C)
    (configs : List ArgConfig) : List C :=
  configs.foldl
    (fun accumulated conf => appendArgCases appendMethod accumulated conf.validCases)
    []

/-- The single-faulted plan written from the spec's words: fold left-to-right
over `configs`; at the faulted index apply
`expandAll(strategy)(accumulated, faulted.invalidCases)`, at every other
index `j` apply `strategy.extend(accumulated, configs[j].validCases[0])`
(JavaScript `[0]`, hence `jsHead`). -/
def specSingleFaultedPlan (appendMethod : List C → JSVal → List C)
    (configs : List ArgConfig) (faultedIndex : Nat) : List C :=
  configs.enum.foldl
    (fun accumulated p =>
      if p.1 = faultedIndex then
        appendArgCases appendMethod accumulated
          (((configs.getD faultedIndex default).invalidCases).getD [])
      else
        appendMethod accumulated (jsHead p.2.validCases))
    []

/-- The configs of spec Scenario 3: first argument has valid `[true]` and
invalid `[false, 0]`, second has valid `[1, 2]` and invalid `[3]`. -/
def configsS3 : List ArgConfig :=
  [⟨"a", [JSVal.vBool true], some [JSVal.vBool false, JSVal.vNum 0], false⟩,
   ⟨"b", [JSVal.vNum 1, JSVal.vNum 2], some [JSVal.vNum 3], false⟩]

/-- A one-argument config sequence used to exercise the out-of-range
faulted-index behavior. -/
def configsC4 : List ArgConfig :=
  [⟨"a", [JSVal.vNum 1], some [JSVal.vNum 2], false⟩]

/-- A config sequence whose only entry has an empty `invalidCases` list. -/
def configsC5 : List ArgConfig :=
  [⟨"a", [JSVal.vNum 1], some [], false⟩]

/-- Configs whose first (non-faulted) entry has no valid samples while the
second (faulted) entry has a non-empty invalid list. -/
def configsC10 : List ArgConfig :=
  [⟨"a", [], some [JSVal.vNum 9], false⟩,
   ⟨"b", [JSVal.vNum 1], some [JSVal.vNum 3], false⟩]

/-- Folding list-append of `f x` over `l` starting from `acc` is `acc`
followed by the concatenation of all the `f x`. -/
theorem foldl_append_join (f : α → List β) (l : List α) (acc : List β) :
    l.foldl (fun a x => a ++ f x) acc = acc ++ (l.map f).flatten := by
  induction l generalizing acc with
  | nil => simp
  | cons x xs ih => simp [ih]

/-- Closed form of `appendArgCases`: the concatenation, in order, of the
strategy applied to the original `cases` at each candidate. -/
theorem appendArgCases_eq_join (m : List C → JSVal → List C)
    (cases : List C) (candidates : List JSVal) :
    appendArgCases m cases candidates = (candidates.map (m cases)).flatten := by
  simpa [appendArgCases] using foldl_append_join (m cases) candidates []

/-- A fold over `enumFrom` whose step ignores the index is a fold over the
underlying list. -/
theorem foldl_enumFrom_snd (f : β → α → β) (l : List α) (n : Nat) (acc : β) :
    (List.enumFrom n l).foldl (fun b p => f b p.2) acc = l.foldl f acc := by
  induction l generalizing n acc with
  | nil => rfl
  | cons x xs ih => simpa [List.enumFrom] using ih (n + 1) (f acc x)

/-- Every index produced by `enumFrom n l` is below `n + l.length`. -/
theorem fst_lt_of_mem_enumFrom {l : List α} {n : Nat} {p : Nat × α}
    (hp : p ∈ List.enumFrom n l) : p.1 < n + l.length := by
  induction l generalizing n with
  | nil => simp [List.enumFrom] at hp
  | cons x xs ih =>
    simp only [List.enumFrom, List.mem_cons] at hp
    rcases hp with h | h
    · subst h; simp
    · have := ih h
      simp only [List.length_cons]
      omega

/-- A natural-number index resolves through `jsIndex` exactly like the
standard optional lookup. -/
theorem jsIndex_natCast (l : List α) (i : Nat) : jsIndex l (i : Int) = l[i]? := by
  unfold jsIndex
  by_cases h : i < l.length
  · rw [dif_pos ⟨Int.ofNat_nonneg i, by simpa using h⟩, List.getElem?_eq_getElem h]
    simp
  · rw [dif_neg (by rintro ⟨-, hlt⟩; simp at hlt; omega),
      List.getElem?_eq_none (by omega)]

/-- A negative index yields `undefined`. -/
theorem jsIndex_of_neg (l : List α) (i : Int) (h : i < 0) : jsIndex l i = none := by
  unfold jsIndex
  rw [dif_neg]
  rintro ⟨h0, -⟩
  omega

/-- A too-large index yields `undefined`. -/
theorem jsIndex_of_ge (l : List α) (i : Int) (h : l.length ≤ i.toNat) (_h0 : 0 ≤ i) :
    jsIndex l i = none := by
  unfold jsIndex
  rw [dif_neg]
  rintro ⟨-, hlt⟩
  omega

/-- A fold over `enum` whose step ignores the index is a fold over the
underlying list. -/
theorem foldl_enum_snd (f : β → α → β) (l : List α) (acc : β) :
    l.enum.foldl (fun b p => f b p.2) acc = l.foldl f acc := by
  rw [show l.enum = List.enumFrom 0 l from rfl]
  exact foldl_enumFrom_snd f l 0 acc

/-- Shared refinement lemma: with an in-range non-negative faulted index
whose config carries a non-empty `invalidCases`, `enumerateCases` computes
exactly the spec's single-faulted fold. -/
theorem enumerate_faulted_eq_specAux (m : List C → JSVal → List C)
    (configs : List ArgConfig) (fidx : Nat) (cfg : ArgConfig)
    (hcfg : configs[fidx]? = some cfg)
    (l : List JSVal) (hinv : cfg.invalidCases = some l)
    (hne : l ≠ []) :
    enumerateCases m configs (some (fidx : Int)) = specSingleFaultedPlan m configs fidx := by
  have hres : resolveFaulted configs (some (fidx : Int)) = some cfg := by
    simp [resolveFaulted, jsIndex_natCast, hcfg]
  have hfic : faultedInvalidCases configs (some (fidx : Int)) = some l := by
    simp [faultedInvalidCases, hres, hinv]
  have hguard : ((resolveFaulted configs (some (fidx : Int))).isSome
      && ((faultedInvalidCases configs (some (fidx : Int))).getD []).isEmpty) = false := by
    simp [hres, hfic, hne]
  rw [enumerateCases, if_neg (by simp [hguard]), specSingleFaultedPlan]
  apply List.foldl_ext
  intro acc p hp
  rcases p with ⟨i, conf⟩
  by_cases hi : i = fidx
  · subst hi
    have hmatch : idxMatches (some (i : Int)) i = true := by
      simp [idxMatches]
    simp [hmatch, hfic, hcfg, hinv]
  · have hmatch : idxMatches (some ((fidx : Nat) : Int)) i = false := by
      simp only [idxMatches, beq_eq_false_iff_ne, ne_eq]
      omega
    have hplan : isAllValidPlan (some ((fidx : Nat) : Int)) = false := by
      simp only [isAllValidPlan, decide_eq_false_iff_not]
      omega
    simp [hmatch, hplan, hi]

/-- C1: with a non-negative in-range faulted index whose config has a
non-empty `invalidCases`, `enumerateCases` equals the spec's left-to-right
fold that applies `expandAll` to the invalid samples at the faulted slot
and extends by only the first valid sample at every other slot. -/
theorem singleFaulted_matches_spec (m : List C → JSVal → List C)
    (configs : List ArgConfig) (fidx : Nat) (cfg : ArgConfig)
    (hcfg : configs[fidx]? = some cfg)
    (l : List JSVal) (hinv : cfg.invalidCases = some l)
    (hne : l ≠ []) :
    enumerateCases m configs (some (fidx : Int)) = specSingleFaultedPlan m configs fidx :=
  enumerate_faulted_eq_specAux m configs fidx cfg hcfg l hinv hne

/-- Witness for C1 at the Scenario 3 configs with faulted index 0. -/
theorem singleFaulted_matches_spec_witness :
    enumerateCases extendArrayCase configsS3 (some (0 : Int)) =
      specSingleFaultedPlan extendArrayCase configsS3 0 :=
  singleFaulted_matches_spec extendArrayCase configsS3 0
    ⟨"a", [JSVal.vBool true], some [JSVal.vBool false, JSVal.vNum 0], false⟩ (by decide)
    [JSVal.vBool false, JSVal.vNum 0] (by decide) (by decide)

/-- C2: with the faulted index absent, `enumerateCases` is the spec's
all-valid fold: `expandAll` of the full valid-sample list at every slot. -/
theorem allValid_matches_spec (m : List C → JSVal → List C) (configs : List ArgConfig) :
    enumerateCases m configs none = specAllValidPlan m configs := by
  rw [enumerateCases, if_neg (by simp [resolveFaulted]), specAllValidPlan,
    ← foldl_enum_snd (fun acc conf => appendArgCases m acc conf.validCases) configs []]
  apply List.foldl_ext
  intro acc p hp
  simp [idxMatches, isAllValidPlan]

/-- C3: `appendArgCases` concatenates the strategy's output per candidate in
the order given; on two candidates it is the exact two-part concatenation,
and an empty candidate list yields the empty list, not `cases`. -/
theorem appendArgCases_concat_map (m : List C → JSVal → List C)
    (cases : List C) (candidates : List JSVal) (v1 v2 : JSVal) :
    appendArgCases m cases candidates = (candidates.map (m cases)).flatten ∧
    appendArgCases m cases [v1, v2] = m cases v1 ++ m cases v2 ∧
    appendArgCases m cases [] = [] := by
  refine ⟨appendArgCases_eq_join m cases candidates, ?_, rfl⟩
  simp [appendArgCases_eq_join]

/-- C4 counterexample: with one config and the out-of-range faulted index 5,
`enumerateCases` returns the pinned case `[[1]]` rather than the empty list
the claim requires. -/
theorem outOfRange_counterexample :
    enumerateCases extendArrayCase configsC4 (some (5 : Int)) = [[JSVal.vNum 1]] ∧
    enumerateCases extendArrayCase configsC4 (some (5 : Int)) ≠ [] := by
  exact ⟨by decide, by decide⟩

/-- C4 amended: a non-negative out-of-range faulted index does not trigger
the empty-result guard, because the faulted config resolves to `undefined`;
the fold still runs and pins every slot to its first valid sample, so the
result is the all-pinned fold (empty only when `configs` is empty) and the
strategy is invoked at every slot. -/
theorem outOfRange_pins_all (m : List C → JSVal → List C)
    (configs : List ArgConfig) (k : Int) (h0 : 0 ≤ k) (hk : configs.length ≤ k.toNat) :
    enumerateCases m configs (some k) =
      configs.foldl (fun acc conf => m acc (jsHead conf.validCases)) [] := by
  have hres : resolveFaulted configs (some k) = none := by
    simp [resolveFaulted, jsIndex_of_ge configs k hk h0]
  rw [enumerateCases, if_neg (by simp [hres]),
    ← foldl_enum_snd (fun acc conf => m acc (jsHead conf.validCases)) configs []]
  apply List.foldl_ext
  intro acc p hp
  have hlt : p.1 < configs.length := by
    simpa using fst_lt_of_mem_enumFrom (show p ∈ List.enumFrom 0 configs from hp)
  have hmatch : idxMatches (some k) p.1 = false := by
    simp only [idxMatches, beq_eq_false_iff_ne, ne_eq]
    omega
  have hplan : isAllValidPlan (some k) = false := by
    simp only [isAllValidPlan, decide_eq_false_iff_not]
    omega
  simp [hmatch, hplan]

/-- Witness for the amended C4 at a concrete out-of-range index. -/
theorem outOfRange_pins_all_witness :
    enumerateCases extendArrayCase configsC4 (some (5 : Int)) =
      configsC4.foldl (fun acc conf => extendArrayCase acc (jsHead conf.validCases)) [] :=
  outOfRange_pins_all extendArrayCase configsC4 5 (by decide) (by decide)

/-- C5: an in-range faulted index whose config has a missing or empty
`invalidCases` list makes `enumerateCases` return the empty list, whatever
the strategy. -/
theorem vacuous_target_empty (m : List C → JSVal → List C)
    (configs : List ArgConfig) (fidx : Nat) (cfg : ArgConfig)
    (hcfg : configs[fidx]? = some cfg)
    (hinv : cfg.invalidCases = none ∨ cfg.invalidCases = some []) :
    enumerateCases m configs (some (fidx : Int)) = [] := by
  have hres : resolveFaulted configs (some (fidx : Int)) = some cfg := by
    simp [resolveFaulted, jsIndex_natCast, hcfg]
  have hcond : ((resolveFaulted configs (some (fidx : Int))).isSome
      && ((faultedInvalidCases configs (some (fidx : Int))).getD []).isEmpty) = true := by
    rcases hinv with h | h <;> simp [faultedInvalidCases, hres, h]
  rw [enumerateCases, if_pos (by simp [hcond])]

/-- Witness for C5 at a config whose `invalidCases` is the empty list. -/
theorem vacuous_target_empty_witness :
    enumerateCases extendArrayCase configsC5 (some (0 : Int)) = [] :=
  vacuous_target_empty extendArrayCase configsC5 0
    ⟨"a", [JSVal.vNum 1], some [], false⟩ (by decide) (Or.inr (by decide))

/-- C6: a present-but-negative faulted index selects exactly the all-valid
plan: the result coincides with the absent-index call, for every strategy
and every config sequence. -/
theorem negative_eq_absent (m : List C → JSVal → List C)
    (configs : List ArgConfig) (k : Int) (hk : k < 0) :
    enumerateCases m configs (some k) = enumerateCases m configs none := by
  have hres : resolveFaulted configs (some k) = none := by
    simp [resolveFaulted, jsIndex_of_neg configs k hk]
  rw [enumerateCases, enumerateCases, if_neg (by simp [hres]),
    if_neg (by simp [resolveFaulted])]
  apply List.foldl_ext
  intro acc p hp
  have hmatch : idxMatches (some k) p.1 = false := by
    simp only [idxMatches, beq_eq_false_iff_ne, ne_eq]
    omega
  have hplan : isAllValidPlan (some k) = true := by
    simp [isAllValidPlan, hk]
  rw [if_neg (by simp [hmatch]), if_pos (by simp [hplan])]
  simp [idxMatches, isAllValidPlan]

/-- Witness for C6 at index -1 on the Scenario 3 configs. -/
theorem negative_eq_absent_witness :
    enumerateCases extendArrayCase configsS3 (some (-1 : Int)) =
      enumerateCases extendArrayCase configsS3 none :=
  negative_eq_absent extendArrayCase configsS3 (-1) (by decide)

/-- C7: for a strategy that returns one singleton case per candidate on
empty input and exactly one extended variant per existing case otherwise,
the length of `appendArgCases` is the product of the case and candidate
counts, degenerating to the candidate count on empty cases. -/
theorem appendArgCases_length (m : List C → JSVal → List C)
    (h1 : ∀ v, (m [] v).length = 1)
    (h2 : ∀ (cs : List C) (v : JSVal), cs ≠ [] → (m cs v).length = cs.length)
    (cases : List C) (candidates : List JSVal) :
    (appendArgCases m cases candidates).length =
      if cases.isEmpty then candidates.length else cases.length * candidates.length := by
  rw [appendArgCases_eq_join]
  cases cases with
  | nil =>
    rw [if_pos (show List.isEmpty ([] : List C) = true from rfl)]
    induction candidates with
    | nil => rfl
    | cons v vs ih =>
      rw [List.map_cons, List.flatten_cons, List.length_append, ih, h1 v, List.length_cons]
      omega
  | cons c cs =>
    rw [if_neg (show ¬List.isEmpty (c :: cs) = true by simp)]
    induction candidates with
    | nil => simp
    | cons v vs ih =>
      rw [List.map_cons, List.flatten_cons, List.length_append, ih,
        h2 (c :: cs) v (by simp)]
      simp only [List.length_cons]
      ring

/-- Witness for C7: the positional strategy on one existing case and two
candidates yields two cases. -/
theorem appendArgCases_length_witness :
    (appendArgCases extendArrayCase [[JSVal.vNum 0]] [JSVal.vNum 1, JSVal.vNum 2]).length = 2 := by
  have h := appendArgCases_length extendArrayCase
    (fun v => rfl)
    (fun cs v hne => by
      cases cs with
      | nil => exact absurd rfl hne
      | cons c cs => simp [extendArrayCase])
    [[JSVal.vNum 0]] [JSVal.vNum 1, JSVal.vNum 2]
  simpa using h

/-- C8: Scenario 3 with the simple positional strategy: faulted index 0
yields exactly the two cases where the second argument is pinned to 1 and
the value 2 never appears. -/
theorem scenario3_enumeration :
    enumerateCases extendArrayCase configsS3 (some (0 : Int)) =
      [[JSVal.vBool false, JSVal.vNum 1], [JSVal.vNum 0, JSVal.vNum 1]] := by
  decide

/-- C9: on the empty config sequence the result is the empty list, for
every strategy and for every faulted-index argument (absent, negative, or
non-negative). -/
theorem empty_configs_empty (m : List C → JSVal → List C) (fidx : Option Int) :
    enumerateCases m [] fidx = [] := by
  have hres : resolveFaulted [] fidx = none := by
    cases fidx with
    | none => rfl
    | some k =>
      rcases lt_or_le k 0 with h | h
      · simp [resolveFaulted, jsIndex_of_neg ([] : List ArgConfig) k h]
      · simp [resolveFaulted, jsIndex_of_ge ([] : List ArgConfig) k (by simp) h]
  rw [enumerateCases, if_neg (by simp [hres])]
  rfl

/-- C10: when a non-faulted config has an empty `validCases`, the
single-faulted plan performs no emptiness check and does not return the
empty list early: it still equals the spec's fold, and the pinned value it
hands the strategy at that slot is the out-of-bounds access result
`undefined`. -/
theorem missing_valid_passes_undef (m : List C → JSVal → List C)
    (configs : List ArgConfig) (fidx : Nat) (cfg : ArgConfig)
    (hcfg : configs[fidx]? = some cfg)
    (l : List JSVal) (hinv : cfg.invalidCases = some l) (hne : l ≠ [])
    (j : Nat) (cfgj : ArgConfig) (_hcfgj : configs[j]? = some cfgj)
    (_hjf : j ≠ fidx) (hempty : cfgj.validCases = []) :
    enumerateCases m configs (some (fidx : Int)) = specSingleFaultedPlan m configs fidx ∧
    jsHead cfgj.validCases = JSVal.undef := by
  refine ⟨enumerate_faulted_eq_specAux m configs fidx cfg hcfg l hinv hne, ?_⟩
  rw [hempty]
  rfl

/-- Witness for C10: faulted index 1 with the first config lacking valid
samples; the enumeration runs and the strategy receives `undefined`. -/
theorem missing_valid_passes_undef_witness :
    enumerateCases extendArrayCase configsC10 (some (1 : Int)) =
      specSingleFaultedPlan extendArrayCase configsC10 1 ∧
    jsHead (⟨"a", [], some [JSVal.vNum 9], false⟩ : ArgConfig).validCases = JSVal.undef :=
  missing_valid_passes_undef extendArrayCase configsC10 1
    ⟨"b", [JSVal.vNum 1], some [JSVal.vNum 3], false⟩ (by decide)
    [JSVal.vNum 3] (by decide) (by decide) 0
    ⟨"a", [], some [JSVal.vNum 9], false⟩ (by decide) (by decide) (by decide)

end LazyJest
